import Mathlib

/-!
Verification development for the css-extractor repository.

The embedding models the import-resolution engine (`ImportManager` in
`css_extractor.py`), the CSS optimizer passes (`CSSOptimizer` in
`css_extractor.py`) and the on-disk cache (`CacheManager` in
`css_extractor/managers/cache.py`).

Modelling conventions:
* Python dicts are insertion-ordered association lists (`dictInsert`
  updates an existing key in place, keeping its position, exactly like
  `d[k] = v`; `eraseKey` is `del d[k]` restricted to its first
  occurrence; `lookupKey` is `d.get(k)`).
* `time.time()` values are modelled as natural numbers supplied
  explicitly to each operation; only their ordering and differences
  matter for the claims.
* Fallible external effects (network fetch, file read) are modelled
  as `Option`-returning capability functions passed in explicitly.
* The resolver's regex scan (`re.findall` / `re.sub` over the
  `@import` pattern) is a deterministic pure function of the text; it
  is modelled as an explicit scanning capability
  `scan : String → List (String × String) × String` returning the list
  of `(target, mediaQuery)` pairs and the text with the directives
  stripped, which is all the traversal logic of
  `ImportManager.process_imports` observes.
-/

namespace CssExtractor

/-- `d.get(k)` on an insertion-ordered Python dict. -/
def lookupKey {α : Type} : List (String × α) → String → Option α
  | [], _ => none
  | (k', v) :: rest, k => if k' = k then some v else lookupKey rest k

/-- `d[k] = v` on a Python dict: update in place if the key exists
(keeping its position), otherwise append at the end. -/
def dictInsert {α : Type} : List (String × α) → String → α → List (String × α)
  | [], k, v => [(k, v)]
  | (k', v') :: rest, k, v =>
    if k' = k then (k', v) :: rest else (k', v') :: dictInsert rest k v

/-- `del d[k]`: drop the first binding of `k`. -/
def eraseKey {α : Type} : List (String × α) → String → List (String × α)
  | [], _ => []
  | (k', v') :: rest, k => if k' = k then rest else (k', v') :: eraseKey rest k

/-- Keys of an association list. -/
def keysOf {α : Type} (l : List (String × α)) : List String := l.map Prod.fst

theorem lookupKey_dictInsert_self {α : Type} (l : List (String × α)) (k : String) (v : α) :
    lookupKey (dictInsert l k v) k = some v := by
  induction l with
  | nil => simp [dictInsert, lookupKey]
  | cons p rest ih =>
    by_cases h : p.1 = k
    · simp [dictInsert, lookupKey, h]
    · simp [dictInsert, lookupKey, h, ih]

theorem lookupKey_dictInsert_ne {α : Type} (l : List (String × α)) (k k' : String) (v : α)
    (h : k' ≠ k) : lookupKey (dictInsert l k v) k' = lookupKey l k' := by
  have hk : k ≠ k' := Ne.symm h
  induction l with
  | nil => simp [dictInsert, lookupKey, hk]
  | cons p rest ih =>
    by_cases hp : p.1 = k
    · subst hp
      simp [dictInsert, lookupKey, hk]
    · by_cases hp' : p.1 = k'
      · simp [dictInsert, lookupKey, hp, hp', h]
      · simp [dictInsert, lookupKey, hp, hp', ih]

theorem lookupKey_none_of_key_notMem {α : Type} (l : List (String × α)) (k : String)
    (h : k ∉ keysOf l) : lookupKey l k = none := by
  induction l with
  | nil => simp [lookupKey]
  | cons p rest ih =>
    simp only [keysOf, List.map_cons, List.mem_cons] at h
    push_neg at h
    simp [lookupKey, Ne.symm h.1, ih (by simpa [keysOf] using h.2)]

theorem key_notMem_eraseKey {α : Type} (l : List (String × α)) (k : String)
    (hnd : (keysOf l).Nodup) : k ∉ keysOf (eraseKey l k) := by
  induction l with
  | nil => simp [eraseKey, keysOf]
  | cons p rest ih =>
    simp only [keysOf, List.map_cons, List.nodup_cons] at hnd
    by_cases hp : p.1 = k
    · subst hp
      simpa [eraseKey, keysOf] using hnd.1
    · simp only [eraseKey, if_neg hp, keysOf, List.map_cons, List.mem_cons]
      push_neg
      exact ⟨Ne.symm hp, ih hnd.2⟩

theorem lookupKey_eraseKey_self {α : Type} (l : List (String × α)) (k : String)
    (h : (keysOf l).Nodup) : lookupKey (eraseKey l k) k = none :=
  lookupKey_none_of_key_notMem _ _ (key_notMem_eraseKey l k h)

theorem key_notMem_of_lookupKey_none {α : Type} {l : List (String × α)} {k : String}
    (h : lookupKey l k = none) : k ∉ keysOf l := by
  induction l with
  | nil => simp [keysOf]
  | cons p rest ih =>
    by_cases hp : p.1 = k
    · simp [lookupKey, hp] at h
    · simp only [lookupKey, if_neg hp] at h
      simp only [keysOf, List.map_cons, List.mem_cons]
      push_neg
      exact ⟨Ne.symm hp, ih h⟩

theorem lookupKey_eraseKey_ne {α : Type} (l : List (String × α)) (k k' : String)
    (h : k' ≠ k) : lookupKey (eraseKey l k) k' = lookupKey l k' := by
  induction l with
  | nil => simp [eraseKey]
  | cons p rest ih =>
    by_cases hp : p.1 = k
    · subst hp
      simp [eraseKey, lookupKey, Ne.symm h]
    · by_cases hp' : p.1 = k'
      · simp [eraseKey, lookupKey, hp, hp', h]
      · simp [eraseKey, lookupKey, hp, hp', ih]

theorem eraseKey_sublist {α : Type} (l : List (String × α)) (k : String) :
    (eraseKey l k).Sublist l := by
  induction l with
  | nil => simp [eraseKey]
  | cons p rest ih =>
    by_cases hp : p.1 = k
    · simp [eraseKey, hp, List.sublist_cons_self p rest]
    · simpa [eraseKey, hp] using List.Sublist.cons₂ p ih

theorem mem_of_mem_eraseKey {α : Type} {l : List (String × α)} {k : String}
    {p : String × α} (h : p ∈ eraseKey l k) : p ∈ l :=
  (eraseKey_sublist l k).mem h

theorem keysOf_eraseKey_nodup {α : Type} {l : List (String × α)} (k : String)
    (h : (keysOf l).Nodup) : (keysOf (eraseKey l k)).Nodup :=
  List.Nodup.sublist (List.Sublist.map Prod.fst (eraseKey_sublist l k)) h

theorem mem_eraseKey_key_ne {α : Type} {l : List (String × α)} {k : String}
    {p : String × α} (hnd : (keysOf l).Nodup) (h : p ∈ eraseKey l k) : p.1 ≠ k := by
  intro hEq
  subst hEq
  exact key_notMem_eraseKey l p.1 hnd (List.mem_map_of_mem Prod.fst h)

theorem mem_keysOf_dictInsert {α : Type} (l : List (String × α)) (k : String) (v : α)
    (x : String) (hx : x ∈ keysOf (dictInsert l k v)) : x = k ∨ x ∈ keysOf l := by
  induction l with
  | nil =>
    simp [dictInsert, keysOf] at hx
    exact Or.inl hx
  | cons p rest ih =>
    by_cases hp : p.1 = k
    · simp only [dictInsert, if_pos hp, keysOf, List.map_cons, List.mem_cons] at hx
      rcases hx with hx | hx
      · exact Or.inr (by simp [keysOf, hx])
      · exact Or.inr (by
          simp only [keysOf, List.map_cons, List.mem_cons]
          exact Or.inr hx)
    · simp only [dictInsert, if_neg hp, keysOf, List.map_cons, List.mem_cons] at hx
      rcases hx with hx | hx
      · exact Or.inr (by simp [keysOf, hx])
      · rcases ih hx with h | h
        · exact Or.inl h
        · exact Or.inr (by
            simp only [keysOf, List.map_cons, List.mem_cons]
            exact Or.inr h)

theorem keysOf_dictInsert_nodup {α : Type} {l : List (String × α)} (k : String) (v : α)
    (h : (keysOf l).Nodup) : (keysOf (dictInsert l k v)).Nodup := by
  induction l with
  | nil => simp [dictInsert, keysOf]
  | cons p rest ih =>
    simp only [keysOf, List.map_cons, List.nodup_cons] at h
    by_cases hp : p.1 = k
    · subst hp
      simp only [dictInsert, if_pos rfl, keysOf, List.map_cons]
      exact List.nodup_cons.2 ⟨h.1, h.2⟩
    · simp only [dictInsert, if_neg hp, keysOf, List.map_cons]
      refine List.nodup_cons.2 ⟨?_, ih h.2⟩
      intro hmem
      rcases mem_keysOf_dictInsert rest k v p.1 hmem with h' | h'
      · exact hp h'
      · exact h.1 h'

theorem mem_dictInsert_of_mem_ne {α : Type} {l : List (String × α)} {k : String} {v : α}
    {p : String × α} (hne : p.1 ≠ k) (h : p ∈ l) : p ∈ dictInsert l k v := by
  induction l with
  | nil => simp at h
  | cons q rest ih =>
    by_cases hq : q.1 = k
    · simp only [dictInsert, if_pos hq]
      rcases List.mem_cons.1 h with h | h
      · exact absurd (h ▸ hq) hne
      · exact List.mem_cons_of_mem _ h
    · simp only [dictInsert, if_neg hq]
      rcases List.mem_cons.1 h with h | h
      · exact h ▸ List.mem_cons_self _ _
      · exact List.mem_cons_of_mem _ (ih h)

theorem mem_dictInsert_elim {α : Type} {l : List (String × α)} {k : String} {v : α}
    {p : String × α} (hnd : (keysOf l).Nodup) (h : p ∈ dictInsert l k v) :
    p = (k, v) ∨ (p ∈ l ∧ p.1 ≠ k) := by
  induction l with
  | nil =>
    simp only [dictInsert, List.mem_singleton] at h
    exact Or.inl h
  | cons q rest ih =>
    simp only [keysOf, List.map_cons, List.nodup_cons] at hnd
    by_cases hq : q.1 = k
    · simp only [dictInsert, if_pos hq] at h
      rcases List.mem_cons.1 h with h | h
      · exact Or.inl (by cases q; simp_all)
      · refine Or.inr ⟨List.mem_cons_of_mem _ h, fun hk => ?_⟩
        exact hnd.1 (by
          have : p.1 ∈ keysOf rest := List.mem_map_of_mem Prod.fst h
          rwa [hk, ← hq] at this)
    · simp only [dictInsert, if_neg hq] at h
      rcases List.mem_cons.1 h with h | h
      · exact Or.inr ⟨h ▸ List.mem_cons_self _ _, h ▸ hq⟩
      · rcases ih hnd.2 h with h' | h'
        · exact Or.inl h'
        · exact Or.inr ⟨List.mem_cons_of_mem _ h'.1, h'.2⟩

/-! ## CacheManager (`css_extractor/managers/cache.py`)

State: `metadata` mirrors the JSON-persisted `self.metadata` mapping
`key → {size, timestamp}` (insertion-ordered dict); `files` mirrors the
cache directory, one payload file per key.  Disk writes are modelled on
their success path (the atomic temp-file/rename dance leaves exactly the
final content under the key); statistics counters and the sidecar
metadata file are not needed by the claims and are omitted. -/

/-- One `metadata` record: `{'size': ..., 'timestamp': ...}`. -/
structure CacheEntry where
  size : Nat
  timestamp : Nat
deriving DecidableEq

/-- The validated constructor parameters of `CacheManager.__init__`. -/
structure CacheConfig where
  size_limit : Int
  expiration : Int
  cleanup_interval : Int
deriving DecidableEq

/-- The mutable state of a `CacheManager`. -/
structure CacheState where
  metadata : List (String × CacheEntry)
  files : List (String × String)
deriving DecidableEq

/-- `CacheManager.__init__` parameter validation (lines 36-41 of
`cache.py`): each check `raise`s before `self.cache_dir`, the metadata
dict, the locks or the statistics are created, so an error result
carries no cache state at all. -/
def CacheManager_init (size_limit expiration cleanup_interval : Int) :
    Except String CacheConfig :=
  if size_limit ≤ 0 then Except.error "Size limit must be positive"
  else if expiration ≤ 0 then Except.error "Expiration time must be positive"
  else if cleanup_interval ≤ 0 then Except.error "Cleanup interval must be positive"
  else Except.ok ⟨size_limit, expiration, cleanup_interval⟩

/-- `sum(info['size'] for info in self.metadata.values())`. -/
def totalSizeM (m : List (String × CacheEntry)) : Nat :=
  (m.map (fun p => p.2.size)).sum

/-- `CacheManager._check_size_limit` (error-free path):
`total_size <= self.size_limit`. -/
def checkSize (cfg : CacheConfig) (st : CacheState) : Bool :=
  (totalSizeM st.metadata : Int) ≤ cfg.size_limit

/-- One insertion step of Python's stable `sorted(..., key=timestamp)`:
the element is placed after every element whose timestamp is `≤` its
own, so that ties keep their original relative order. -/
def insertTs (acc : List (String × CacheEntry)) (x : String × CacheEntry) :
    List (String × CacheEntry) :=
  match acc with
  | [] => [x]
  | y :: ys => if x.2.timestamp < y.2.timestamp then x :: y :: ys else y :: insertTs ys x

/-- `sorted(self.metadata.items(), key=lambda x: x[1]['timestamp'])`:
stable ascending sort by timestamp. -/
def sortTs (l : List (String × CacheEntry)) : List (String × CacheEntry) :=
  l.foldl insertTs []

/-- Removal of one entry: unlink the payload file (if present) and
`del self.metadata[key]`. -/
def removeEntry (st : CacheState) (k : String) : CacheState :=
  ⟨eraseKey st.metadata k, eraseKey st.files k⟩

/-- The eviction loop of `CacheManager._make_space`: walk the entries
oldest-timestamp-first, stop as soon as the aggregate size is within
the limit, otherwise remove the entry (file and metadata). -/
def evictLoop (cfg : CacheConfig) : List (String × CacheEntry) → CacheState → CacheState
  | [], st => st
  | (k, _) :: rest, st =>
    if checkSize cfg st then st else evictLoop cfg rest (removeEntry st k)

/-- `CacheManager._make_space` (error-free path; its `required_size`
argument is unused by the source). -/
def make_space (cfg : CacheConfig) (st : CacheState) : CacheState :=
  if checkSize cfg st then st else evictLoop cfg (sortTs st.metadata) st

/-- `len(css_content.encode())`: UTF-8 byte length. -/
def contentSize (s : String) : Nat := s.utf8ByteSize

/-- Key derivation in `CacheManager.cache_css`: a supplied key is used
verbatim; an omitted key becomes
`sha256(content).hexdigest() + "_" + thread_id + "_" + uuid4().hex`.
The SHA-256 digest is abstracted as a deterministic function argument
`hsh`; `tid` is `threading.get_ident()` and `uuidHex` is the value of
`uuid.uuid4().hex`, which is freshly random on every call. -/
def effectiveKey (hsh : String → String) (css_content : String)
    (key : Option String) (tid : Nat) (uuidHex : String) : String :=
  match key with
  | some k => k
  | none => hsh css_content ++ "_" ++ toString tid ++ "_" ++ uuidHex

/-- `CacheManager.cache_css` (error-free path): derive the key, write
the payload atomically, record `{'size': byte-length, 'timestamp': now}`
in the metadata, then evict if the aggregate size exceeds the limit.
Returns the effective key and the new state. -/
def cache_css (cfg : CacheConfig) (hsh : String → String) (css_content : String)
    (key : Option String) (now tid : Nat) (uuidHex : String) (st : CacheState) :
    String × CacheState :=
  let k := effectiveKey hsh css_content key tid uuidHex
  let st1 : CacheState := ⟨st.metadata, dictInsert st.files k css_content⟩
  let st2 : CacheState := ⟨dictInsert st1.metadata k ⟨contentSize css_content, now⟩, st1.files⟩
  let st3 := if checkSize cfg st2 then st2 else make_space cfg st2
  (k, st3)

/-- `CacheManager.remove_cached_css`: unlink the payload and drop the
metadata record; removing an absent key changes nothing. -/
def remove_cached_css (st : CacheState) (k : String) : CacheState := removeEntry st k

/-- `CacheManager.get_cached_css`: absent key or missing file is a
miss; an entry older than `expiration` is lazily removed (via
`remove_cached_css`) and reported as a miss; otherwise the payload is
returned. -/
def get_cached_css (cfg : CacheConfig) (k : String) (now : Nat) (st : CacheState) :
    Option String × CacheState :=
  match lookupKey st.metadata k with
  | none => (none, st)
  | some info =>
    if (now : Int) - (info.timestamp : Int) > cfg.expiration then
      (none, remove_cached_css st k)
    else
      match lookupKey st.files k with
      | none => (none, st)
      | some content => (some content, st)

/-- `CacheManager._clean_expired` (error-free path): collect the keys
whose age exceeds `expiration`, then remove each entry. -/
def clean_expired (cfg : CacheConfig) (now : Nat) (st : CacheState) : CacheState :=
  let expired := (st.metadata.filter
    (fun p => (now : Int) - (p.2.timestamp : Int) > cfg.expiration)).map Prod.fst
  expired.foldl removeEntry st

/-- Well-formedness of a cache state: metadata keys are distinct (true
of every state a real `CacheManager` reaches, because the metadata is a
Python dict). -/
def CacheWF (st : CacheState) : Prop := (keysOf st.metadata).Nodup

instance (st : CacheState) : Decidable (CacheWF st) :=
  inferInstanceAs (Decidable (keysOf st.metadata).Nodup)

/-- Ascending-by-timestamp ordering predicate for sorted metadata. -/
def TsSorted (l : List (String × CacheEntry)) : Prop :=
  l.Pairwise (fun a b => a.2.timestamp ≤ b.2.timestamp)

theorem insertTs_perm (acc : List (String × CacheEntry)) (x : String × CacheEntry) :
    (insertTs acc x).Perm (x :: acc) := by
  induction acc with
  | nil => simp [insertTs]
  | cons y ys ih =>
    by_cases h : x.2.timestamp < y.2.timestamp
    · simp [insertTs, h]
    · simp only [insertTs, if_neg h]
      exact ((ih.cons y).trans (List.Perm.swap x y ys)).symm.symm

theorem foldl_insertTs_perm (l : List (String × CacheEntry)) :
    ∀ acc, (l.foldl insertTs acc).Perm (acc ++ l) := by
  induction l with
  | nil => intro acc; simp
  | cons x xs ih =>
    intro acc
    have h1 : (xs.foldl insertTs (insertTs acc x)).Perm (insertTs acc x ++ xs) := ih _
    have h2 : (insertTs acc x ++ xs).Perm ((x :: acc) ++ xs) :=
      (insertTs_perm acc x).append_right xs
    have h3 : ((x :: acc) ++ xs).Perm (acc ++ x :: xs) := by
      simpa using List.perm_middle.symm
    exact (h1.trans h2).trans h3

theorem sortTs_perm (l : List (String × CacheEntry)) : (sortTs l).Perm l := by
  simpa [sortTs] using foldl_insertTs_perm l []

theorem insertTs_sorted {acc : List (String × CacheEntry)} (x : String × CacheEntry)
    (h : TsSorted acc) : TsSorted (insertTs acc x) := by
  induction acc with
  | nil => simp [insertTs, TsSorted]
  | cons y ys ih =>
    rcases List.pairwise_cons.1 h with ⟨hy, hys⟩
    by_cases hlt : x.2.timestamp < y.2.timestamp
    · simp only [insertTs, if_pos hlt, TsSorted]
      refine List.pairwise_cons.2 ⟨?_, h⟩
      intro z hz
      rcases List.mem_cons.1 hz with hz | hz
      · exact le_of_lt (hz ▸ hlt)
      · exact le_trans (le_of_lt hlt) (hy z hz)
    · simp only [insertTs, if_neg hlt]
      refine List.pairwise_cons.2 ⟨?_, ih hys⟩
      intro z hz
      have hz' : z ∈ x :: ys := (insertTs_perm ys x).mem_iff.1 hz
      rcases List.mem_cons.1 hz' with hz' | hz'
      · exact hz' ▸ le_of_not_lt hlt
      · exact hy z hz'

theorem sortTs_sorted (l : List (String × CacheEntry)) : TsSorted (sortTs l) := by
  suffices h : ∀ acc, TsSorted acc → TsSorted (l.foldl insertTs acc) from
    h [] (by simp [TsSorted])
  induction l with
  | nil => intro acc h; simpa using h
  | cons x xs ih =>
    intro acc h
    exact ih _ (insertTs_sorted x h)

theorem totalSizeM_eraseKey_le (m : List (String × CacheEntry)) (k : String) :
    totalSizeM (eraseKey m k) ≤ totalSizeM m := by
  induction m with
  | nil => simp [eraseKey]
  | cons p rest ih =>
    by_cases hp : p.1 = k
    · simp only [eraseKey, if_pos hp, totalSizeM, List.map_cons, List.sum_cons]
      exact Nat.le_add_left _ _
    · simp only [eraseKey, if_neg hp, totalSizeM, List.map_cons, List.sum_cons]
      exact Nat.add_le_add_left ih _

/-- A metadata list whose keys are all `k`, with distinct keys and a
successful lookup, is the singleton `[(k, e)]`. -/
theorem metadata_singleton {m : List (String × CacheEntry)} {k : String} {e : CacheEntry}
    (hall : ∀ p ∈ m, p.1 = k) (hnd : (keysOf m).Nodup)
    (hl : lookupKey m k = some e) : m = [(k, e)] := by
  cases m with
  | nil => simp [lookupKey] at hl
  | cons p rest =>
    have hp : p.1 = k := hall p (List.mem_cons_self _ _)
    have hrest : rest = [] := by
      cases rest with
      | nil => rfl
      | cons q qs =>
        exfalso
        have hq : q.1 = k := hall q (List.mem_cons_of_mem _ (List.mem_cons_self _ _))
        simp only [keysOf, List.map_cons, List.nodup_cons, List.mem_cons] at hnd
        exact hnd.1 (Or.inl (by rw [hq, ← hp]))
    subst hrest
    simp only [lookupKey, if_pos hp] at hl
    cases p
    simp_all

/-- If the loop runs over a list covering every live key, it ends
within the size limit (at worst by emptying the metadata). -/
theorem evictLoop_check (cfg : CacheConfig) (l : List (String × CacheEntry)) :
    ∀ st : CacheState, (∀ p ∈ st.metadata, p.1 ∈ keysOf l) → CacheWF st →
    0 ≤ cfg.size_limit → checkSize cfg (evictLoop cfg l st) = true := by
  induction l with
  | nil =>
    intro st hcov _ hlim
    have hempty : st.metadata = [] := by
      cases hm : st.metadata with
      | nil => rfl
      | cons p rest =>
        exfalso
        have := hcov p (by rw [hm]; exact List.mem_cons_self _ _)
        simp [keysOf] at this
    simp [evictLoop, checkSize, totalSizeM, hempty, hlim]
  | cons q rest ih =>
    intro st hcov hwf hlim
    by_cases hchk : checkSize cfg st
    · cases q with
      | mk k e => simp [evictLoop, hchk]
    · cases q with
      | mk k e =>
        simp only [evictLoop, if_neg hchk]
        refine ih (removeEntry st k) ?_ ?_ hlim
        · intro p hp
          have hne : p.1 ≠ k := mem_eraseKey_key_ne hwf hp
          have hmem := mem_of_mem_eraseKey hp
          have := hcov p hmem
          simp only [keysOf, List.map_cons, List.mem_cons] at this
          rcases this with h | h
          · exact absurd h hne
          · exact h
        · exact keysOf_eraseKey_nodup k hwf

/-- The eviction loop never resurrects a key that is absent. -/
theorem evictLoop_absent (cfg : CacheConfig) (l : List (String × CacheEntry)) :
    ∀ st : CacheState, ∀ k : String, lookupKey st.metadata k = none →
    lookupKey (evictLoop cfg l st).metadata k = none := by
  induction l with
  | nil => intro st k h; simpa [evictLoop] using h
  | cons q rest ih =>
    intro st k h
    by_cases hchk : checkSize cfg st
    · cases q with
      | mk k' e => simpa [evictLoop, hchk] using h
    · cases q with
      | mk k' e =>
        simp only [evictLoop, if_neg hchk]
        refine ih _ k ?_
        simp only [removeEntry]
        refine lookupKey_none_of_key_notMem _ _ ?_
        intro hmem
        exact key_notMem_of_lookupKey_none h
          ((List.Sublist.map Prod.fst (eraseKey_sublist st.metadata k')).mem hmem)

theorem mem_of_lookupKey_some {α : Type} {l : List (String × α)} {k : String} {v : α}
    (h : lookupKey l k = some v) : (k, v) ∈ l := by
  induction l with
  | nil => simp [lookupKey] at h
  | cons p rest ih =>
    by_cases hp : p.1 = k
    · simp only [lookupKey, if_pos hp] at h
      exact List.mem_cons.2 (Or.inl (by cases p; simp_all))
    · simp only [lookupKey, if_neg hp] at h
      exact List.mem_cons_of_mem _ (ih h)

/-- If the loop's snapshot list ends with the entry for `key` and no
earlier snapshot element carries `key`, and `key`'s entry alone fits
the budget, the loop never evicts `key`: by the time it could, every
other entry is gone and the size check succeeds. -/
theorem evictLoop_keeps_last (cfg : CacheConfig) (key : String) (e : CacheEntry)
    (c : String) :
    ∀ (l₁ : List (String × CacheEntry)) (st : CacheState),
    (∀ p ∈ l₁, p.1 ≠ key) →
    (∀ p ∈ st.metadata, p.1 = key ∨ p.1 ∈ keysOf l₁) →
    CacheWF st →
    lookupKey st.metadata key = some e →
    lookupKey st.files key = some c →
    (e.size : Int) ≤ cfg.size_limit →
    lookupKey (evictLoop cfg (l₁ ++ [(key, e)]) st).metadata key = some e ∧
    lookupKey (evictLoop cfg (l₁ ++ [(key, e)]) st).files key = some c := by
  intro l₁
  induction l₁ with
  | nil =>
    intro st hne hcov hwf hmeta hfile hsize
    have hall : ∀ p ∈ st.metadata, p.1 = key := by
      intro p hp
      rcases hcov p hp with h | h
      · exact h
      · simp [keysOf] at h
    have hsingle : st.metadata = [(key, e)] := metadata_singleton hall hwf hmeta
    have hchk : checkSize cfg st = true := by
      simp [checkSize, hsingle, totalSizeM, hsize]
    simpa [evictLoop, hchk] using ⟨hmeta, hfile⟩
  | cons q rest ih =>
    intro st hne hcov hwf hmeta hfile hsize
    by_cases hchk : checkSize cfg st
    · cases q with
      | mk k' e' => simpa [evictLoop, hchk] using ⟨hmeta, hfile⟩
    · cases q with
      | mk k' e' =>
        have hk' : k' ≠ key := hne (k', e') (List.mem_cons_self _ _)
        simp only [List.cons_append, evictLoop, if_neg hchk]
        refine ih (removeEntry st k') ?_ ?_ ?_ ?_ ?_ hsize
        · intro p hp
          exact hne p (List.mem_cons_of_mem _ hp)
        · intro p hp
          have hpne : p.1 ≠ k' := mem_eraseKey_key_ne hwf hp
          rcases hcov p (mem_of_mem_eraseKey hp) with h | h
          · exact Or.inl h
          · simp only [keysOf, List.map_cons, List.mem_cons] at h
            rcases h with h | h
            · exact absurd h hpne
            · exact Or.inr h
        · exact keysOf_eraseKey_nodup k' hwf
        · simpa [removeEntry] using
            (lookupKey_eraseKey_ne st.metadata k' key (Ne.symm hk')).symm ▸ hmeta
        · simpa [removeEntry] using
            (lookupKey_eraseKey_ne st.files k' key (Ne.symm hk')).symm ▸ hfile

/-- When `(key, e)` is the strict-latest entry of `m`, the stable
timestamp sort puts it last, with no other occurrence of `key`. -/
theorem sortTs_last_decomp (m : List (String × CacheEntry)) (key : String) (e : CacheEntry)
    (hnd : (keysOf m).Nodup) (hmem : (key, e) ∈ m)
    (hmax : ∀ p ∈ m, p.1 ≠ key → p.2.timestamp < e.timestamp) :
    ∃ l₁, sortTs m = l₁ ++ [(key, e)] ∧ (∀ p ∈ l₁, p.1 ≠ key) ∧
      (∀ p ∈ m, p.1 = key ∨ p.1 ∈ keysOf l₁) := by
  have hperm := sortTs_perm m
  have hnd' : (keysOf (sortTs m)).Nodup := ((hperm.map Prod.fst).nodup_iff).2 hnd
  obtain ⟨l₁, l₂, hsplit⟩ := List.append_of_mem (hperm.mem_iff.2 hmem)
  have hl₂ : l₂ = [] := by
    cases hl : l₂ with
    | nil => rfl
    | cons q l₂' =>
      exfalso
      subst hl
      have hsorted := sortTs_sorted m
      rw [hsplit] at hsorted
      have hsub : ((key, e) :: q :: l₂').Pairwise
          (fun a b => a.2.timestamp ≤ b.2.timestamp) :=
        hsorted.sublist (List.sublist_append_right l₁ _)
      have hle : e.timestamp ≤ q.2.timestamp :=
        (List.pairwise_cons.1 hsub).1 q (List.mem_cons_self _ _)
      have hqmem : q ∈ m := hperm.mem_iff.1 (by
        rw [hsplit]
        exact List.mem_append_right _ (List.mem_cons_of_mem _ (List.mem_cons_self _ _)))
      have hqne : q.1 ≠ key := by
        rw [hsplit] at hnd'
        have hksplit : (keysOf l₁ ++ keysOf ((key, e) :: q :: l₂')).Nodup := by
          simpa [keysOf, List.map_append] using hnd'
        have : (keysOf ((key, e) :: q :: l₂')).Nodup :=
          List.Nodup.of_append_right hksplit
        simp only [keysOf, List.map_cons, List.nodup_cons, List.mem_cons] at this
        intro hq
        exact this.1 (Or.inl hq.symm)
      exact absurd (hmax q hqmem hqne) (not_lt.2 hle)
  subst hl₂
  refine ⟨l₁, by simpa using hsplit, ?_, ?_⟩
  · intro p hp hpk
    rw [hsplit] at hnd'
    have hdisj := List.disjoint_of_nodup_append
      (by simpa [keysOf, List.map_append] using hnd')
    exact hdisj (hpk ▸ List.mem_map_of_mem Prod.fst hp) (by simp [keysOf])
  · intro p hp
    have : p ∈ l₁ ++ [(key, e)] := by
      rw [← hsplit]
      simpa using hperm.mem_iff.2 hp
    rcases List.mem_append.1 this with h | h
    · exact Or.inr (List.mem_map_of_mem Prod.fst h)
    · simp only [List.mem_singleton] at h
      exact Or.inl (by rw [h])

/-- When `(k0, e0)` is the strict-oldest entry of `m`, the stable
timestamp sort puts it first. -/
theorem sortTs_head_min (m : List (String × CacheEntry)) (k0 : String) (e0 : CacheEntry)
    (hmem : (k0, e0) ∈ m)
    (hmin : ∀ p ∈ m, p ≠ (k0, e0) → e0.timestamp < p.2.timestamp) :
    ∃ t, sortTs m = (k0, e0) :: t := by
  have hperm := sortTs_perm m
  cases hs : sortTs m with
  | nil =>
    exfalso
    have := hperm.mem_iff.2 hmem
    rw [hs] at this
    simp at this
  | cons h t =>
    by_cases hh : h = (k0, e0)
    · exact ⟨t, by rw [hh]⟩
    · exfalso
      have hhm : h ∈ m := hperm.mem_iff.1 (by rw [hs]; exact List.mem_cons_self _ _)
      have hlt : e0.timestamp < h.2.timestamp := hmin h hhm hh
      have hsorted := sortTs_sorted m
      rw [hs] at hsorted
      have hmem' : (k0, e0) ∈ h :: t := by
        rw [← hs]
        exact hperm.mem_iff.2 hmem
      rcases List.mem_cons.1 hmem' with heq | hmem'
      · exact hh heq.symm
      · have hle : h.2.timestamp ≤ e0.timestamp :=
          (List.pairwise_cons.1 hsorted).1 (k0, e0) hmem'
        exact absurd hlt (not_lt.2 hle)

theorem make_space_check (cfg : CacheConfig) (st : CacheState) (hwf : CacheWF st)
    (hlim : 0 ≤ cfg.size_limit) : checkSize cfg (make_space cfg st) = true := by
  unfold make_space
  by_cases h : checkSize cfg st
  · simp [h]
  · simp only [if_neg h]
    refine evictLoop_check cfg (sortTs st.metadata) st ?_ hwf hlim
    intro p hp
    exact (((sortTs_perm st.metadata).map Prod.fst).mem_iff).2
      (List.mem_map_of_mem Prod.fst hp)

theorem checkSize_removeEntry (cfg : CacheConfig) (st : CacheState) (k : String)
    (h : checkSize cfg st = true) : checkSize cfg (removeEntry st k) = true := by
  simp only [checkSize, decide_eq_true_eq] at h ⊢
  have := totalSizeM_eraseKey_le st.metadata k
  simp only [removeEntry]
  omega

theorem checkSize_foldl_removeEntry (cfg : CacheConfig) (ks : List String) :
    ∀ st : CacheState, checkSize cfg st = true →
    checkSize cfg (ks.foldl removeEntry st) = true := by
  induction ks with
  | nil => intro st h; simpa using h
  | cons k rest ih =>
    intro st h
    exact ih _ (checkSize_removeEntry cfg st k h)

/-- Sample deterministic stand-in for `hashlib.sha256(...).hexdigest()`
used to instantiate witnesses. -/
def hshDemo : String → String := fun s => toString s.utf8ByteSize

/-- Sample validated configuration: budget 10 bytes, TTL 100, sweep 300. -/
def cfgDemo : CacheConfig := ⟨10, 100, 300⟩

/-- A fresh cache state. -/
def emptyCache : CacheState := ⟨[], []⟩

/-- **C10.** Constructing a `CacheManager` raises `ValueError` exactly
when `size_limit <= 0`, `expiration <= 0` or `cleanup_interval <= 0`
(checked in that order, each before any cache state — directory,
metadata, locks, statistics — is created, which all happens after the
three checks in `__init__`); for all positive parameters validation
passes and construction succeeds. -/
theorem CacheManager_init_validates (s e c : Int) :
    (CacheManager_init s e c = Except.ok ⟨s, e, c⟩ ↔ 0 < s ∧ 0 < e ∧ 0 < c) ∧
    (s ≤ 0 → CacheManager_init s e c = Except.error "Size limit must be positive") ∧
    (0 < s → e ≤ 0 →
      CacheManager_init s e c = Except.error "Expiration time must be positive") ∧
    (0 < s → 0 < e → c ≤ 0 →
      CacheManager_init s e c = Except.error "Cleanup interval must be positive") := by
  refine ⟨⟨fun h => ?_, fun h => ?_⟩, fun h => ?_, fun hs h => ?_, fun hs he h => ?_⟩
  · by_contra hneg
    simp only [CacheManager_init] at h
    split at h
    · exact Except.noConfusion h
    · split at h
      · exact Except.noConfusion h
      · split at h
        · exact Except.noConfusion h
        · rename_i h1 h2 h3
          exact hneg ⟨by omega, by omega, by omega⟩
  · simp [CacheManager_init, not_le.2 h.1, not_le.2 h.2.1, not_le.2 h.2.2]
  · simp [CacheManager_init, h]
  · simp [CacheManager_init, not_le.2 hs, h]
  · simp [CacheManager_init, not_le.2 hs, not_le.2 he, h]

/-- Witness for `CacheManager_init_validates` at concrete parameters. -/
theorem CacheManager_init_validates_witness :
    CacheManager_init 10 100 300 = Except.ok ⟨10, 100, 300⟩ ∧
    CacheManager_init 0 100 300 = Except.error "Size limit must be positive" ∧
    CacheManager_init 10 0 300 = Except.error "Expiration time must be positive" ∧
    CacheManager_init 10 100 0 = Except.error "Cleanup interval must be positive" :=
  ⟨(CacheManager_init_validates 10 100 300).1.2 (by norm_num),
   (CacheManager_init_validates 0 100 300).2.1 (by norm_num),
   (CacheManager_init_validates 10 0 300).2.2.1 (by norm_num) (by norm_num),
   (CacheManager_init_validates 10 100 0).2.2.2 (by norm_num) (by norm_num) (by norm_num)⟩

/-- **C2 (amended).** `cache_css` uses a supplied key verbatim; when
the key is omitted, the effective key is the content hash joined with
the calling thread's id and the hex of a *fresh* `uuid.uuid4()` — so it
is not a function of the content alone (see the counterexample). -/
theorem cache_css_effective_key (cfg : CacheConfig) (hsh : String → String)
    (content : String) (now tid : Nat) (uuidHex : String) (st : CacheState) (k : String) :
    (cache_css cfg hsh content (some k) now tid uuidHex st).1 = k ∧
    (cache_css cfg hsh content none now tid uuidHex st).1 =
      hsh content ++ "_" ++ toString tid ++ "_" ++ uuidHex := by
  constructor <;> rfl

/-- **C2 counterexample.** Two `cache_css` calls on the same content
with the key omitted differ in their fresh `uuid4` value and therefore
return *different* effective keys: the auto-generated key is not
deterministic in the content. -/
theorem cache_css_autokey_not_deterministic :
    (cache_css cfgDemo hshDemo "body" none 5 7 "aaaa" emptyCache).1 ≠
    (cache_css cfgDemo hshDemo "body" none 5 7 "bbbb" emptyCache).1 := by
  decide

theorem if_check_eq_make_space (cfg : CacheConfig) (st : CacheState) :
    (if checkSize cfg st then st else make_space cfg st) = make_space cfg st := by
  by_cases h : checkSize cfg st <;> simp [make_space, h]

theorem cache_css_snd (cfg : CacheConfig) (hsh : String → String) (content : String)
    (key : Option String) (now tid : Nat) (uuidHex : String) (st : CacheState) :
    (cache_css cfg hsh content key now tid uuidHex st).2 =
    make_space cfg
      ⟨dictInsert st.metadata (effectiveKey hsh content key tid uuidHex)
        ⟨contentSize content, now⟩,
       dictInsert st.files (effectiveKey hsh content key tid uuidHex) content⟩ := by
  simp only [cache_css]
  exact if_check_eq_make_space cfg _

theorem get_cached_css_hit (cfg : CacheConfig) (key : String) (now' : Nat)
    (st : CacheState) (sz ts : Nat) (c : String)
    (hm : lookupKey st.metadata key = some ⟨sz, ts⟩)
    (hf : lookupKey st.files key = some c)
    (httl : (now' : Int) - (ts : Int) ≤ cfg.expiration) :
    (get_cached_css cfg key now' st).1 = some c := by
  simp only [get_cached_css, hm, hf]
  rw [if_neg (not_lt.2 httl)]

theorem get_cached_css_absent (cfg : CacheConfig) (key : String) (now' : Nat)
    (st : CacheState) (hm : lookupKey st.metadata key = none) :
    (get_cached_css cfg key now' st).1 = none := by
  simp [get_cached_css, hm]

/-- **C3.** After every mutating cache operation the aggregate size of
live entries is at most the configured limit, and a put that pushes the
aggregate over the limit evicts oldest-created-first, making the
strictly-oldest entry unretrievable via `get_cached_css`:
1. after `cache_css` the aggregate is within the limit, whatever the
   starting state (at worst eviction empties the metadata);
2. `remove_cached_css` keeps an in-budget cache in budget;
3. the expiry sweep `_clean_expired` keeps an in-budget cache in budget;
4. if a put lands over budget, the entry with the strictly oldest
   timestamp is evicted first and a subsequent get of its key misses. -/
theorem cache_size_budget_invariant :
    (∀ (cfg : CacheConfig) (hsh : String → String) (content : String) (key : Option String)
      (now tid : Nat) (uuidHex : String) (st : CacheState),
      0 < cfg.size_limit → CacheWF st →
      checkSize cfg (cache_css cfg hsh content key now tid uuidHex st).2 = true) ∧
    (∀ (cfg : CacheConfig) (st : CacheState) (k : String),
      checkSize cfg st = true → checkSize cfg (remove_cached_css st k) = true) ∧
    (∀ (cfg : CacheConfig) (now : Nat) (st : CacheState),
      checkSize cfg st = true → checkSize cfg (clean_expired cfg now st) = true) ∧
    (∀ (cfg : CacheConfig) (hsh : String → String) (content : String) (key : Option String)
      (now now' tid : Nat) (uuidHex : String) (st : CacheState) (k0 : String)
      (e0 : CacheEntry),
      CacheWF st → (k0, e0) ∈ st.metadata →
      (∀ p ∈ st.metadata, p ≠ (k0, e0) → e0.timestamp < p.2.timestamp) →
      e0.timestamp < now →
      effectiveKey hsh content key tid uuidHex ≠ k0 →
      checkSize cfg
        ⟨dictInsert st.metadata (effectiveKey hsh content key tid uuidHex)
          ⟨contentSize content, now⟩,
         dictInsert st.files (effectiveKey hsh content key tid uuidHex) content⟩ = false →
      (get_cached_css cfg k0 now'
        (cache_css cfg hsh content key now tid uuidHex st).2).1 = none) := by
  refine ⟨?_, ?_, ?_, ?_⟩
  · intro cfg hsh content key now tid uuidHex st hlim hwf
    rw [cache_css_snd]
    exact make_space_check cfg _ (keysOf_dictInsert_nodup _ _ hwf) (le_of_lt hlim)
  · intro cfg st k h
    exact checkSize_removeEntry cfg st k h
  · intro cfg now st h
    simp only [clean_expired]
    exact checkSize_foldl_removeEntry cfg _ st h
  · intro cfg hsh content key now now' tid uuidHex st k0 e0 hwf hmem hmin hfresh hkey hover
    rw [cache_css_snd]
    set ek := effectiveKey hsh content key tid uuidHex with hek
    set st2 : CacheState :=
      ⟨dictInsert st.metadata ek ⟨contentSize content, now⟩,
       dictInsert st.files ek content⟩ with hst2
    have hwf2 : CacheWF st2 := keysOf_dictInsert_nodup _ _ hwf
    have hmem2 : (k0, e0) ∈ st2.metadata :=
      mem_dictInsert_of_mem_ne (Ne.symm hkey) hmem
    have hmin2 : ∀ p ∈ st2.metadata, p ≠ (k0, e0) → e0.timestamp < p.2.timestamp := by
      intro p hp hne
      rcases mem_dictInsert_elim hwf hp with h | ⟨hmem', _⟩
      · rw [h]; exact hfresh
      · exact hmin p hmem' hne
    obtain ⟨t, hsort⟩ := sortTs_head_min st2.metadata k0 e0 hmem2 hmin2
    have hms : make_space cfg st2 = evictLoop cfg t (removeEntry st2 k0) := by
      simp only [make_space, hsort, evictLoop, hover, Bool.false_eq_true, if_false]
    rw [hms]
    refine get_cached_css_absent cfg k0 now' _ ?_
    refine evictLoop_absent cfg t _ k0 ?_
    simp only [removeEntry]
    exact lookupKey_eraseKey_self st2.metadata k0 hwf2

/-- Pre-state for the C3 witness: two entries of sizes 6 and 4
(aggregate exactly at the 10-byte budget) with timestamps 1 and 2. -/
def stOld : CacheState :=
  ⟨[("old", ⟨6, 1⟩), ("b", ⟨4, 2⟩)], [("old", "oooooo"), ("b", "bbbb")]⟩

/-- Witness for `cache_size_budget_invariant`: putting a 5-byte entry
at time 3 overflows the 10-byte budget and evicts the oldest key. -/
theorem cache_size_budget_invariant_witness :
    checkSize cfgDemo (cache_css cfgDemo hshDemo "ccccc" (some "c") 3 0 "" stOld).2 = true ∧
    checkSize cfgDemo (remove_cached_css stOld "old") = true ∧
    checkSize cfgDemo (clean_expired cfgDemo 200 stOld) = true ∧
    (get_cached_css cfgDemo "old" 3
      (cache_css cfgDemo hshDemo "ccccc" (some "c") 3 0 "" stOld).2).1 = none :=
  ⟨cache_size_budget_invariant.1 cfgDemo hshDemo "ccccc" (some "c") 3 0 "" stOld
     (by decide) (by decide),
   cache_size_budget_invariant.2.1 cfgDemo stOld "old" (by decide),
   cache_size_budget_invariant.2.2.1 cfgDemo 200 stOld (by decide),
   cache_size_budget_invariant.2.2.2 cfgDemo hshDemo "ccccc" (some "c") 3 3 0 "" stOld
     "old" ⟨6, 1⟩ (by decide) (by decide) (by decide) (by decide) (by decide) (by decide)⟩

/-- **C9 (amended).** The put/get round-trip holds whenever the write's
timestamp is strictly newer than every live entry's timestamp (the
normal case of a strictly advancing clock): for content within budget,
a `get_cached_css` of the returned key before TTL expiry and with no
intervening mutation returns exactly the stored content.  (Without the
strict-freshness condition the fresh entry itself can be evicted on a
timestamp tie — see the counterexample.) -/
theorem cache_roundtrip_fresh_timestamp (cfg : CacheConfig) (hsh : String → String)
    (content : String) (key : Option String) (now now' tid : Nat) (uuidHex : String)
    (st : CacheState) (hwf : CacheWF st)
    (hsize : (contentSize content : Int) ≤ cfg.size_limit)
    (hfresh : ∀ p ∈ st.metadata, p.2.timestamp < now)
    (httl : (now' : Int) - (now : Int) ≤ cfg.expiration) :
    (get_cached_css cfg (cache_css cfg hsh content key now tid uuidHex st).1 now'
      (cache_css cfg hsh content key now tid uuidHex st).2).1 = some content := by
  rw [cache_css_snd]
  set ek := effectiveKey hsh content key tid uuidHex with hek
  set st2 : CacheState :=
    ⟨dictInsert st.metadata ek ⟨contentSize content, now⟩,
     dictInsert st.files ek content⟩ with hst2
  have hfst : (cache_css cfg hsh content key now tid uuidHex st).1 = ek := rfl
  rw [hfst]
  have hwf2 : CacheWF st2 := keysOf_dictInsert_nodup _ _ hwf
  have hm2 : lookupKey st2.metadata ek = some ⟨contentSize content, now⟩ :=
    lookupKey_dictInsert_self _ _ _
  have hf2 : lookupKey st2.files ek = some content :=
    lookupKey_dictInsert_self _ _ _
  by_cases hchk : checkSize cfg st2
  · have : make_space cfg st2 = st2 := by simp [make_space, hchk]
    rw [this]
    exact get_cached_css_hit cfg ek now' st2 _ _ _ hm2 hf2 httl
  · have hms : make_space cfg st2 = evictLoop cfg (sortTs st2.metadata) st2 := by
      simp [make_space, hchk]
    rw [hms]
    have hmax : ∀ p ∈ st2.metadata, p.1 ≠ ek →
        p.2.timestamp < (⟨contentSize content, now⟩ : CacheEntry).timestamp := by
      intro p hp hne
      rcases mem_dictInsert_elim hwf hp with h | ⟨hmem', _⟩
      · exact absurd (by rw [h]) hne
      · exact hfresh p hmem'
    obtain ⟨l₁, hdec, hne, hcov⟩ := sortTs_last_decomp st2.metadata ek
      ⟨contentSize content, now⟩ hwf2 (mem_of_lookupKey_some hm2) hmax
    rw [hdec]
    obtain ⟨hm3, hf3⟩ := evictLoop_keeps_last cfg ek ⟨contentSize content, now⟩
      content l₁ st2 hne hcov hwf2 hm2 hf2 hsize
    exact get_cached_css_hit cfg ek now' _ _ _ _ hm3 hf3 httl

/-- Witness for `cache_roundtrip_fresh_timestamp` at concrete input. -/
theorem cache_roundtrip_fresh_timestamp_witness :
    (get_cached_css cfgDemo (cache_css cfgDemo hshDemo "ccccc" (some "c") 3 0 "" stOld).1 50
      (cache_css cfgDemo hshDemo "ccccc" (some "c") 3 0 "" stOld).2).1 = some "ccccc" :=
  cache_roundtrip_fresh_timestamp cfgDemo hshDemo "ccccc" (some "c") 3 50 0 "" stOld
    (by decide) (by decide) (by decide) (by decide)

/-- Pre-state for the C9 counterexample: entries `"k"` (1 byte) and
`"b"` (9 bytes) share timestamp 5 and exactly fill the 10-byte budget.
This state is reachable by two puts under a clock that does not advance
between them. -/
def stTie : CacheState :=
  ⟨[("k", ⟨1, 5⟩), ("b", ⟨9, 5⟩)], [("k", "x"), ("b", "bbbbbbbbb")]⟩

/-- **C9 counterexample.** Overwriting key `"k"` with 2 bytes at the
same clock reading 5 pushes the aggregate to 11 > 10; the stable
timestamp sort leaves the refreshed `"k"` (tied at 5, earlier insertion
position) *first*, so `_make_space` evicts the entry that was just
written, and the immediate `get_cached_css` of the returned key misses
— despite the content being within budget, the read happening before
TTL expiry (age 0), and no intervening mutation. -/
theorem cache_roundtrip_counterexample :
    (contentSize "ab" : Int) ≤ cfgDemo.size_limit ∧
    checkSize cfgDemo stTie = true ∧
    (get_cached_css cfgDemo (cache_css cfgDemo hshDemo "ab" (some "k") 5 0 "" stTie).1 5
      (cache_css cfgDemo hshDemo "ab" (some "k") 5 0 "" stTie).2).1 = none := by
  decide

/-! ## CSSOptimizer (`css_extractor.py`, lines 490-626)

A parsed style rule (`cssutils.css.CSSStyleRule`) is a selector list
plus a declaration block; each declaration has a name, a value and a
priority string (`'important'` for `!important` declarations, `''`
otherwise).  Non-style rules are skipped by every pass and are not
modelled.  The BeautifulSoup selector-match capability
`soup.select(selector)` is modelled as
`mtch : String → Option Bool`: `none` when matching raises
(unsupported syntax), `some b` when it returns a (non)empty node list. -/

/-- One CSS declaration (`cssutils` `Property`). -/
structure Decl where
  name : String
  value : String
  priority : String
deriving DecidableEq

/-- One CSS style rule: selector list plus declaration block. -/
structure StyleRule where
  selectors : List String
  decls : List Decl
deriving DecidableEq, Inhabited

/-- `CSSOptimizer._is_rule_used`: scans the rule's selectors in order;
a selector whose match *raises* is logged and skipped (the `except`
branch inside the `for` loop does not return), so the rule counts as
used only if some selector definitively matches. -/
def is_rule_used (mtch : String → Option Bool) (rule : StyleRule) : Bool :=
  rule.selectors.any (fun s => mtch s == some true)

/-- Python's `for rule in sheet: ... sheet.deleteRule(rule)` iterates
the underlying rule list by index while deleting in place, so the
element immediately after a deleted one is skipped (kept unexamined).
This models that iteration for a deletion predicate `p` (delete when
`p x = false`). -/
def pyFilterSkip {α : Type} (p : α → Bool) : List α → List α
  | [] => []
  | [x] => if p x then [x] else []
  | x :: y :: ys => if p x then x :: pyFilterSkip p (y :: ys) else y :: pyFilterSkip p ys

/-- `CSSOptimizer._remove_unused` over the modelled style rules:
delete the rules the in-place iteration examines and finds unused. -/
def remove_unused (mtch : String → Option Bool) (sheet : List StyleRule) :
    List StyleRule :=
  pyFilterSkip (is_rule_used mtch) sheet

/-- `defaultdict(list)` grouping of `CSSOptimizer._merge_rules`: each
rule is appended to the group of *each* of its selectors, groups keyed
by selector text in first-appearance order. -/
def ruleGroups (sheet : List StyleRule) : List (String × List StyleRule) :=
  sheet.foldl
    (fun groups rule =>
      rule.selectors.foldl
        (fun gs sel =>
          match lookupKey gs sel with
          | some rs => dictInsert gs sel (rs ++ [rule])
          | none => gs ++ [(sel, [rule])])
        groups)
    []

/-- The `props` dict built by `CSSOptimizer._merge_rule_group`:
`props[prop.name] = prop.value` over every rule in order, so the later
rule's value wins for a repeated property name. -/
def combineProps (rules : List StyleRule) : List (String × String) :=
  rules.foldl
    (fun props rule =>
      rule.decls.foldl (fun ps d => dictInsert ps d.name d.value) props)
    []

/-- The merged rule built by `_merge_rule_group`: the *first* rule's
selector list, and the combined properties set via
`new_rule.style[name] = value` (which records no priority). -/
def mergedRule (rules : List StyleRule) : StyleRule :=
  ⟨(rules.headI).selectors, (combineProps rules).map (fun p => ⟨p.1, p.2, ""⟩)⟩

/-- Delete the first structural occurrence of a rule from the sheet. -/
def eraseRule : List StyleRule → StyleRule → List StyleRule
  | [], _ => []
  | x :: xs, r => if x = r then xs else x :: eraseRule xs r

/-- The deletion loop of `_merge_rule_group`: delete each grouped rule
in turn; `deleteRule` on a rule no longer present raises, which the
surrounding `except` absorbs, aborting the rest of the group merge
(the new rule is then never added). -/
def mergeGroupDelete (newRule : StyleRule) :
    List StyleRule → List StyleRule → List StyleRule
  | [], sheet => sheet ++ [newRule]
  | r :: rs, sheet =>
    if r ∈ sheet then mergeGroupDelete newRule rs (eraseRule sheet r) else sheet

/-- `CSSOptimizer._merge_rule_group` applied to one group. -/
def merge_rule_group (rules : List StyleRule) (sheet : List StyleRule) :
    List StyleRule :=
  mergeGroupDelete (mergedRule rules) rules sheet

/-- `CSSOptimizer._merge_rules`: group rules by each individual
selector over the *original* sheet, then merge every group that holds
more than one rule. -/
def merge_rules (sheet : List StyleRule) : List StyleRule :=
  (ruleGroups sheet).foldl
    (fun sh g => if g.2.length > 1 then merge_rule_group g.2 sh else sh)
    sheet

/-- The grouping the spec describes for comparison: group by *exact
selector-list equality*.  Modelled from the spec: "group rules by exact
selector-list equality; for groups with more than one rule, merge
declarations with later rules overriding earlier ones ...". -/
def ruleGroupsBySelectorList (sheet : List StyleRule) :
    List (List String × List StyleRule) :=
  sheet.foldl
    (fun groups rule =>
      match groups.lookup rule.selectors with
      | some rs =>
        groups.map (fun g => if g.1 = rule.selectors then (g.1, rs ++ [rule]) else g)
      | none => groups ++ [(rule.selectors, [rule])])
    []

/-- Spec-described merge pass (for refutation by comparison): replace
each selector-list-equal group of more than one rule by one rule with
the shared selector list and the later-wins declaration union. -/
def merge_rules_spec (sheet : List StyleRule) : List StyleRule :=
  (ruleGroupsBySelectorList sheet).foldl
    (fun sh g => if g.2.length > 1 then merge_rule_group g.2 sh else sh)
    sheet

/-- `s.toList.count c`: occurrences of a character. -/
def countChar (c : Char) (s : String) : Nat := s.toList.count c

/-- `len(s.split(c))` in Python: number of occurrences of `c` plus 1
(splitting on an absent separator still yields one piece). -/
def pySplitLen (c : Char) (s : String) : Nat := countChar c s + 1

/-- The specificity computed by `CSSOptimizer._rule_priority`:
`len(split('#')) + len(split('.')) + len(split(':'))` summed over the
rule's selectors — i.e. the marker counts *plus 3 per selector*. -/
def ruleSpecificity (r : StyleRule) : Nat :=
  (r.selectors.map (fun s => pySplitLen '#' s + pySplitLen '.' s + pySplitLen ':' s)).sum

/-- Count of declarations whose priority is `'important'`. -/
def importantCount (r : StyleRule) : Nat :=
  r.decls.countP (fun d => d.priority == "important")

/-- `CSSOptimizer._rule_priority`:
`(-important_count, -specificity, -selector_count)`. -/
def rule_priority (r : StyleRule) : Int × Int × Int :=
  (-(importantCount r : Int), -(ruleSpecificity r : Int), -(r.selectors.length : Int))

/-- Strict lexicographic order on priority tuples — Python's tuple `<`. -/
def priorityLt (a b : Int × Int × Int) : Bool :=
  decide (a.1 < b.1 ∨ (a.1 = b.1 ∧ (a.2.1 < b.2.1 ∨ (a.2.1 = b.2.1 ∧ a.2.2 < b.2.2))))

/-- One insertion step of Python's stable `list.sort(key=...)`:
place the element after every element whose key is `≤` its own. -/
def insertByPriority (prio : StyleRule → Int × Int × Int) (acc : List StyleRule)
    (x : StyleRule) : List StyleRule :=
  match acc with
  | [] => [x]
  | y :: ys =>
    if priorityLt (prio x) (prio y) then x :: y :: ys else y :: insertByPriority prio ys x

/-- Stable ascending sort by a priority key. -/
def sortByPriority (prio : StyleRule → Int × Int × Int) (sheet : List StyleRule) :
    List StyleRule :=
  sheet.foldl (insertByPriority prio) []

/-- `CSSOptimizer._reorder_rules`: stable ascending sort of the style
rules by `_rule_priority` (each rule is then deleted and re-appended in
sorted order, leaving exactly the sorted list). -/
def reorder_rules (sheet : List StyleRule) : List StyleRule :=
  sortByPriority rule_priority sheet

/-- The specificity the spec describes (for refutation by comparison).
Modelled from the spec: "count of ID markers + class markers +
pseudo-class markers across all selectors in the rule". -/
def ruleSpecificity_spec (r : StyleRule) : Nat :=
  (r.selectors.map (fun s => countChar '#' s + countChar '.' s + countChar ':' s)).sum

/-- Spec-described priority tuple (for refutation by comparison). -/
def rule_priority_spec (r : StyleRule) : Int × Int × Int :=
  (-(importantCount r : Int), -(ruleSpecificity_spec r : Int), -(r.selectors.length : Int))

/-- Spec-described reorder pass (for refutation by comparison). -/
def reorder_rules_spec (sheet : List StyleRule) : List StyleRule :=
  sortByPriority rule_priority_spec sheet

theorem pyFilterSkip_sublist {α : Type} (p : α → Bool) :
    ∀ l : List α, (pyFilterSkip p l).Sublist l
  | [] => by simp [pyFilterSkip]
  | [x] => by
    by_cases h : p x <;> simp [pyFilterSkip, h]
  | x :: y :: ys => by
    by_cases h : p x
    · simpa [pyFilterSkip, h] using List.Sublist.cons₂ x (pyFilterSkip_sublist p (y :: ys))
    · simpa [pyFilterSkip, h] using
        List.Sublist.cons x (List.Sublist.cons₂ y (pyFilterSkip_sublist p ys))

theorem mem_pyFilterSkip_of_true {α : Type} (p : α → Bool) :
    ∀ (l : List α) (r : α), r ∈ l → p r = true → r ∈ pyFilterSkip p l
  | [], r => by simp
  | [x], r => by
    intro hm hp
    rcases List.mem_singleton.1 hm with rfl
    simp [pyFilterSkip, hp]
  | x :: y :: ys, r => by
    intro hm hp
    by_cases hx : p x
    · simp only [pyFilterSkip, if_pos hx]
      rcases List.mem_cons.1 hm with rfl | hm'
      · exact List.mem_cons_self _ _
      · exact List.mem_cons_of_mem _ (mem_pyFilterSkip_of_true p (y :: ys) r hm' hp)
    · simp only [pyFilterSkip, if_neg hx]
      rcases List.mem_cons.1 hm with rfl | hm'
      · exact absurd hp hx
      · rcases List.mem_cons.1 hm' with rfl | hm''
        · exact List.mem_cons_self _ _
        · exact List.mem_cons_of_mem _ (mem_pyFilterSkip_of_true p ys r hm'' hp)

/-- **C6 (amended).** In the remove-unused pass a selector whose
matching raises is logged and *skipped* (treated as not matching), not
treated as used; a rule definitively matched by some selector is always
kept, the pass never invents or reorders rules, and a rule it deletes
had no selector that definitively matched (it was deleted even if every
selector merely raised — see the counterexample).  (The `return True`
fail-safe sits in the outer handler of `_is_rule_used`, which guards
iteration of the selector list itself, not per-selector match errors.) -/
theorem remove_unused_matched_kept :
    (∀ (mtch : String → Option Bool) (l : List StyleRule) (r : StyleRule),
      r ∈ l → is_rule_used mtch r = true → r ∈ remove_unused mtch l) ∧
    (∀ (mtch : String → Option Bool) (l : List StyleRule),
      (remove_unused mtch l).Sublist l) ∧
    (∀ (mtch : String → Option Bool) (l : List StyleRule) (r : StyleRule),
      r ∈ l → r ∉ remove_unused mtch l → is_rule_used mtch r = false) := by
  refine ⟨?_, ?_, ?_⟩
  · intro mtch l r hm hu
    exact mem_pyFilterSkip_of_true _ l r hm hu
  · intro mtch l
    exact pyFilterSkip_sublist _ l
  · intro mtch l r hm hout
    by_contra hne
    exact hout (mem_pyFilterSkip_of_true _ l r hm (Bool.of_not_eq_false hne))

/-- Match capability where selector `"::bad"` raises and everything
else matches nothing. -/
def mtchBad : String → Option Bool := fun s => if s = "::bad" then none else some false

/-- A rule whose only selector makes matching raise. -/
def ruleThrow : StyleRule := ⟨["::bad"], [⟨"color", "red", ""⟩]⟩

/-- Witness for `remove_unused_matched_kept` at concrete input. -/
theorem remove_unused_matched_kept_witness :
    (⟨["p"], [⟨"margin", "0", ""⟩]⟩ : StyleRule) ∈
      remove_unused (fun s => some (s = "p"))
        [⟨["p"], [⟨"margin", "0", ""⟩]⟩, ⟨["q"], [⟨"color", "red", ""⟩]⟩] ∧
    (remove_unused mtchBad [ruleThrow]).Sublist [ruleThrow] ∧
    is_rule_used mtchBad ruleThrow = false :=
  ⟨remove_unused_matched_kept.1 (fun s => some (s = "p"))
     [⟨["p"], [⟨"margin", "0", ""⟩]⟩, ⟨["q"], [⟨"color", "red", ""⟩]⟩]
     ⟨["p"], [⟨"margin", "0", ""⟩]⟩ (by decide) (by decide),
   remove_unused_matched_kept.2.1 mtchBad [ruleThrow],
   remove_unused_matched_kept.2.2 mtchBad [ruleThrow] ruleThrow (by decide) (by decide)⟩

/-- **C6 counterexample.** A rule whose single selector raises during
matching is *deleted* by the remove-unused pass: `_is_rule_used`'s
inner `except` merely logs and moves to the next selector, so with no
other selector the function returns `False` and `_remove_unused`
deletes the rule — the claim says a throwing selector counts as used
and the rule is kept. -/
theorem remove_unused_throw_deleted :
    mtchBad "::bad" = none ∧ remove_unused mtchBad [ruleThrow] = [] := by
  decide

/-- **C7 (amended).** The merge pass groups rules by *each individual
selector* (a rule joins one group per selector), not by exact
selector-list equality; a group of more than one rule is replaced by a
single rule carrying the *first* grouped rule's selector list and the
later-wins union of the group's declarations (with priorities dropped
by `new_rule.style[name] = value`).  For rules sharing the same
one-selector list this coincides with the claim: two such rules merge
into one with the later value winning per property name, as in the
claim's `.a\x7bcolor:red\x7d` + `.a\x7bcolor:blue;font-weight:bold\x7d`
example. -/
theorem merge_rules_same_selector_pair :
    (∀ (s : String) (d1 d2 : List Decl),
      merge_rules [⟨[s], d1⟩, ⟨[s], d2⟩] = [mergedRule [⟨[s], d1⟩, ⟨[s], d2⟩]]) ∧
    (∀ (s n v1 v2 : String),
      combineProps [⟨[s], [⟨n, v1, ""⟩]⟩, ⟨[s], [⟨n, v2, ""⟩]⟩] = [(n, v2)]) ∧
    merge_rules [⟨[".a"], [⟨"color", "red", ""⟩]⟩,
        ⟨[".a"], [⟨"color", "blue", ""⟩, ⟨"font-weight", "bold", ""⟩]⟩] =
      [⟨[".a"], [⟨"color", "blue", ""⟩, ⟨"font-weight", "bold", ""⟩]⟩] := by
  refine ⟨?_, ?_, by decide⟩
  · intro s d1 d2
    simp [merge_rules, ruleGroups, merge_rule_group, mergeGroupDelete, mergedRule,
      lookupKey, dictInsert, eraseRule, List.headI]
  · intro s n v1 v2
    simp [combineProps, dictInsert]

/-- **C7 counterexample.** The code groups `.a,.b\x7bcolor:red\x7d`
and `.a\x7bcolor:blue\x7d` together (they share the single selector
`.a`) and replaces both by one rule with the *first* rule's selector
list — although their selector lists differ, so grouping by exact
selector-list equality (the claim, `merge_rules_spec`) would leave the
sheet unchanged. -/
theorem merge_rules_grouping_counterexample :
    merge_rules [⟨[".a", ".b"], [⟨"color", "red", ""⟩]⟩, ⟨[".a"], [⟨"color", "blue", ""⟩]⟩] =
      [⟨[".a", ".b"], [⟨"color", "blue", ""⟩]⟩] ∧
    merge_rules_spec
        [⟨[".a", ".b"], [⟨"color", "red", ""⟩]⟩, ⟨[".a"], [⟨"color", "blue", ""⟩]⟩] =
      [⟨[".a", ".b"], [⟨"color", "red", ""⟩]⟩, ⟨[".a"], [⟨"color", "blue", ""⟩]⟩] ∧
    merge_rules [⟨[".a", ".b"], [⟨"color", "red", ""⟩]⟩, ⟨[".a"], [⟨"color", "blue", ""⟩]⟩] ≠
      merge_rules_spec
        [⟨[".a", ".b"], [⟨"color", "red", ""⟩]⟩, ⟨[".a"], [⟨"color", "blue", ""⟩]⟩] := by
  refine ⟨by decide, by decide, by decide⟩

theorem priorityLt_asymm {a b : Int × Int × Int} (h : priorityLt a b = true) :
    priorityLt b a = false := by
  simp only [priorityLt, decide_eq_true_eq, decide_eq_false_iff_not] at h ⊢
  omega

theorem priorityLt_trans {a b c : Int × Int × Int} (hab : priorityLt a b = true)
    (hbc : priorityLt b c = true) : priorityLt a c = true := by
  simp only [priorityLt, decide_eq_true_eq] at hab hbc ⊢
  omega

theorem insertByPriority_perm (prio : StyleRule → Int × Int × Int)
    (acc : List StyleRule) (x : StyleRule) :
    (insertByPriority prio acc x).Perm (x :: acc) := by
  induction acc with
  | nil => simp [insertByPriority]
  | cons y ys ih =>
    by_cases h : priorityLt (prio x) (prio y)
    · simp [insertByPriority, h]
    · simp only [insertByPriority, if_neg h]
      exact ((ih.cons y).trans (List.Perm.swap x y ys)).symm.symm

theorem sortByPriority_perm (prio : StyleRule → Int × Int × Int) (l : List StyleRule) :
    (sortByPriority prio l).Perm l := by
  suffices h : ∀ acc, (l.foldl (insertByPriority prio) acc).Perm (acc ++ l) by
    simpa [sortByPriority] using h []
  induction l with
  | nil => intro acc; simp
  | cons x xs ih =>
    intro acc
    have h1 := ih (insertByPriority prio acc x)
    have h2 : (insertByPriority prio acc x ++ xs).Perm ((x :: acc) ++ xs) :=
      (insertByPriority_perm prio acc x).append_right xs
    have h3 : ((x :: acc) ++ xs).Perm (acc ++ x :: xs) := by
      simpa using List.perm_middle.symm
    exact (h1.trans h2).trans h3

/-- Sortedness for the reorder pass: no later rule has a strictly
smaller priority tuple than an earlier one. -/
def PrioSorted (prio : StyleRule → Int × Int × Int) (l : List StyleRule) : Prop :=
  l.Pairwise (fun a b => priorityLt (prio b) (prio a) = false)

theorem insertByPriority_sorted (prio : StyleRule → Int × Int × Int)
    {acc : List StyleRule} (x : StyleRule) (h : PrioSorted prio acc) :
    PrioSorted prio (insertByPriority prio acc x) := by
  induction acc with
  | nil => simp [insertByPriority, PrioSorted]
  | cons y ys ih =>
    rcases List.pairwise_cons.1 h with ⟨hy, hys⟩
    by_cases hlt : priorityLt (prio x) (prio y)
    · simp only [insertByPriority, if_pos hlt, PrioSorted]
      refine List.pairwise_cons.2 ⟨?_, h⟩
      intro z hz
      rcases List.mem_cons.1 hz with rfl | hz
      · exact priorityLt_asymm hlt
      · by_cases hzx : priorityLt (prio z) (prio x)
        · exact absurd (priorityLt_trans hzx hlt) (by simpa using hy z hz)
        · exact Bool.of_not_eq_true hzx
    · simp only [insertByPriority, if_neg hlt, PrioSorted]
      refine List.pairwise_cons.2 ⟨?_, ih hys⟩
      intro z hz
      have hz' : z ∈ x :: ys := (insertByPriority_perm prio ys x).mem_iff.1 hz
      rcases List.mem_cons.1 hz' with rfl | hz'
      · exact Bool.of_not_eq_true hlt
      · exact hy z hz'

theorem sortByPriority_sorted (prio : StyleRule → Int × Int × Int) (l : List StyleRule) :
    PrioSorted prio (sortByPriority prio l) := by
  suffices h : ∀ acc, PrioSorted prio acc → PrioSorted prio (l.foldl (insertByPriority prio) acc) from
    h [] (by simp [PrioSorted])
  induction l with
  | nil => intro acc h; simpa using h
  | cons x xs ih =>
    intro acc h
    exact ih _ (insertByPriority_sorted prio x h)

/-- **C8 (amended).** The reorder pass stably sorts the rule list
ascending by the tuple
`(-importantDeclarationCount, -specificityScore, -selectorCount)`
(a permutation of the input in which no later rule has a strictly
smaller tuple), where the specificity score of a rule is
`len(split('#')) + len(split('.')) + len(split(':'))` summed over its
selectors — the marker counts *plus three per selector*, not the bare
marker counts (see the counterexample).  The claim's example holds: of
`[p\x7bcolor:red\x7d, .x#y\x7bcolor:blue!important\x7d]` the
`!important` rule sorts first. -/
theorem reorder_rules_characterization :
    (∀ l : List StyleRule, (reorder_rules l).Perm l) ∧
    (∀ l : List StyleRule, PrioSorted rule_priority (reorder_rules l)) ∧
    reorder_rules [⟨["p"], [⟨"color", "red", ""⟩]⟩,
        ⟨[".x#y"], [⟨"color", "blue", "important"⟩]⟩] =
      [⟨[".x#y"], [⟨"color", "blue", "important"⟩]⟩, ⟨["p"], [⟨"color", "red", ""⟩]⟩] :=
  ⟨fun l => sortByPriority_perm rule_priority l,
   fun l => sortByPriority_sorted rule_priority l,
   by decide⟩

/-- **C8 counterexample.** The claim's specificity (bare marker
counts) orders rules differently from the code's
`len(split(...))`-based score: for the no-marker two-selector rule
`x, y` (code score 6, claim score 0) versus the one-selector rule `#i`
(code score 4, claim score 1), the code sorts the two-selector rule
first while the claim's tuple sorts the `#i` rule first. -/
theorem reorder_rules_specificity_counterexample :
    reorder_rules [⟨["#i"], [⟨"p", "v", ""⟩]⟩, ⟨["x", "y"], [⟨"p", "v", ""⟩]⟩] =
      [⟨["x", "y"], [⟨"p", "v", ""⟩]⟩, ⟨["#i"], [⟨"p", "v", ""⟩]⟩] ∧
    reorder_rules_spec [⟨["#i"], [⟨"p", "v", ""⟩]⟩, ⟨["x", "y"], [⟨"p", "v", ""⟩]⟩] =
      [⟨["#i"], [⟨"p", "v", ""⟩]⟩, ⟨["x", "y"], [⟨"p", "v", ""⟩]⟩] ∧
    reorder_rules [⟨["#i"], [⟨"p", "v", ""⟩]⟩, ⟨["x", "y"], [⟨"p", "v", ""⟩]⟩] ≠
      reorder_rules_spec [⟨["#i"], [⟨"p", "v", ""⟩]⟩, ⟨["x", "y"], [⟨"p", "v", ""⟩]⟩] := by
  refine ⟨by decide, by decide, by decide⟩

/-! ## ImportManager (`css_extractor.py`, lines 755-880)

The resolver's state is the per-*instance* `_processed_imports` set
(modelled as a list used as a set) and the `_import_cache`
(url → content; its timestamps are irrelevant within one resolution
instant and omitted, as is `_import_times` / `_cleanup_old_imports`,
which only trims entries older than an hour once more than 1000 are
tracked).  `_import_depth` is incremented on entry and decremented in a
`finally`, so within a single-threaded call tree it behaves exactly
like a depth argument; it is modelled as remaining `gas`
(`gas = MAX_IMPORT_DEPTH - depth`).  The trace records the
`logging.warning` calls (depth limit, circular import) and each
attempt to fetch an import target (by its raw target text). -/

/-- The mutable state of an `ImportManager` instance. -/
structure ImpState where
  processed : List String
  cache : List (String × String)
deriving DecidableEq

/-- Observable events of one resolution. -/
inductive ImpEvent where
  | depthWarning : ImpEvent
  | circular : String → ImpEvent
  | fetchAttempt : String → ImpEvent
deriving DecidableEq

/-- Number of fetch attempts for the import target `u` in a trace. -/
def countFetch (u : String) (evs : List ImpEvent) : Nat :=
  evs.countP (fun e => decide (e = ImpEvent.fetchAttempt u))

def MAX_IMPORT_DEPTH : Nat := 10

/-- The per-import loop of `ImportManager.process_imports`
(lines 830-876): for each `(target, mediaQuery)` pair in source order:
a target already in `_processed_imports` is dropped with a circular
warning; otherwise it is added to the set, the instance cache is
consulted under the *raw* target (a hit contributes nothing to the
output, because the append sits inside the cache-miss branch), and on a
miss the target is normalized and fetched (URL or file path; a failure
is logged and skipped), cached under the *normalized* url, recursively
resolved via `resolve`, wrapped in `@media` when a query is present,
and appended after the host text. -/
def importLoop (normalize : String → String → String) (fetch : String → Option String)
    (resolve : String → ImpState → String × ImpState × List ImpEvent) (base : String) :
    List (String × String) → String → ImpState → String × ImpState × List ImpEvent
  | [], acc, st => (acc, st, [])
  | (url, mq) :: rest, acc, st =>
    if url ∈ st.processed then
      let r := importLoop normalize fetch resolve base rest acc st
      (r.1, r.2.1, ImpEvent.circular url :: r.2.2)
    else
      let st1 : ImpState := ⟨st.processed ++ [url], st.cache⟩
      match lookupKey st1.cache url with
      | some _ => importLoop normalize fetch resolve base rest acc st1
      | none =>
        let nurl := normalize url base
        match fetch nurl with
        | none =>
          let r := importLoop normalize fetch resolve base rest acc st1
          (r.1, r.2.1, ImpEvent.fetchAttempt url :: r.2.2)
        | some css =>
          let st2 : ImpState := ⟨st1.processed, dictInsert st1.cache nurl css⟩
          let rr := resolve css st2
          let wrapped :=
            if mq = "" then rr.1 else "@media " ++ mq ++ " \x7b\n" ++ rr.1 ++ "\n\x7d"
          let r := importLoop normalize fetch resolve base rest (acc ++ "\n" ++ wrapped) rr.2.1
          (r.1, r.2.1, ImpEvent.fetchAttempt url :: (rr.2.2 ++ r.2.2))

/-- `ImportManager.process_imports` with the remaining recursion budget
`gas = MAX_IMPORT_DEPTH - depth` made explicit: with no gas left
(`depth >= MAX_IMPORT_DEPTH` at entry) the text is returned unchanged
(imports neither stripped nor expanded) with only a depth warning;
otherwise the scan extracts and strips the `@import` directives and the
loop processes them. -/
def processImportsGas (scan : String → List (String × String) × String)
    (normalize : String → String → String) (fetch : String → Option String)
    (base : String) : Nat → String → ImpState → String × ImpState × List ImpEvent
  | 0 => fun css st => (css, st, [ImpEvent.depthWarning])
  | gas + 1 => fun css st =>
    let p := scan css
    importLoop normalize fetch (processImportsGas scan normalize fetch base gas) base
      p.1 p.2 st

/-- `process_imports` entered at a given `_import_depth`. -/
def process_imports (scan : String → List (String × String) × String)
    (normalize : String → String → String) (fetch : String → Option String)
    (base : String) (depth : Nat) (css : String) (st : ImpState) :
    String × ImpState × List ImpEvent :=
  processImportsGas scan normalize fetch base (MAX_IMPORT_DEPTH - depth) css st

/-- `ImportManager.__init__`: fresh empty instance state. -/
def newImportManager : ImpState := ⟨[], []⟩

/-- `ImportManager.clear`: empties `_processed_imports`, the import
times, the content cache, and resets the depth counter. -/
def ImportManager_clear (_st : ImpState) : ImpState := ⟨[], []⟩

/-- Concrete scanning capability for test documents: a lookup table
from document text to its `(imports, strippedText)`; unknown text has
no imports. -/
def scanTable (tbl : List (String × (List (String × String) × String))) (s : String) :
    List (String × String) × String :=
  match lookupKey tbl s with
  | some r => r
  | none => ([], s)

theorem countFetch_nil (u : String) : countFetch u [] = 0 := rfl

theorem countFetch_cons_depth (u : String) (evs : List ImpEvent) :
    countFetch u (ImpEvent.depthWarning :: evs) = countFetch u evs := by
  simp [countFetch, List.countP_cons]

theorem countFetch_cons_circular (u x : String) (evs : List ImpEvent) :
    countFetch u (ImpEvent.circular x :: evs) = countFetch u evs := by
  simp [countFetch, List.countP_cons]

theorem countFetch_cons_fetch (u x : String) (evs : List ImpEvent) :
    countFetch u (ImpEvent.fetchAttempt x :: evs) =
      countFetch u evs + (if x = u then 1 else 0) := by
  by_cases h : x = u <;> simp [countFetch, List.countP_cons, h]

theorem countFetch_append (u : String) (a b : List ImpEvent) :
    countFetch u (a ++ b) = countFetch u a + countFetch u b := by
  simp [countFetch, List.countP_append]

/-- The visited-set discipline of one resolution step over the result
`res = (text, state, trace)`: the `_processed_imports` set only grows,
a target already in it is never fetched, a fetched target ends up in
it, and no target is fetched more than once. -/
def StepOk (st : ImpState) (res : String × ImpState × List ImpEvent) : Prop :=
  st.processed ⊆ res.2.1.processed ∧
  ∀ u : String,
    (u ∈ st.processed → countFetch u res.2.2 = 0) ∧
    (1 ≤ countFetch u res.2.2 → u ∈ res.2.1.processed) ∧
    countFetch u res.2.2 ≤ 1

/-- A resolution function every call of which obeys `StepOk`. -/
def FetchGood (f : String → ImpState → String × ImpState × List ImpEvent) : Prop :=
  ∀ css st, StepOk st (f css st)

theorem importLoop_good (normalize : String → String → String)
    (fetch : String → Option String)
    (resolve : String → ImpState → String × ImpState × List ImpEvent) (base : String)
    (hres : FetchGood resolve) :
    ∀ (imports : List (String × String)) (acc : String) (st : ImpState),
    StepOk st (importLoop normalize fetch resolve base imports acc st) := by
  intro imports
  induction imports with
  | nil =>
    intro acc st
    refine ⟨by simp [importLoop], fun u => ?_⟩
    simp [importLoop, countFetch]
  | cons head rest ih =>
    obtain ⟨url, mq⟩ := head
    intro acc st
    by_cases hv : url ∈ st.processed
    · obtain ⟨ihS, ihU⟩ := ih acc st
      simp only [importLoop, if_pos hv, StepOk]
      refine ⟨ihS, fun u => ?_⟩
      obtain ⟨h1, h2, h3⟩ := ihU u
      rw [countFetch_cons_circular]
      exact ⟨h1, h2, h3⟩
    · simp only [importLoop, if_neg hv]
      cases hc : lookupKey st.cache url with
      | some v =>
        obtain ⟨ihS, ihU⟩ := ih acc ⟨st.processed ++ [url], st.cache⟩
        simp only [hc, StepOk]
        refine ⟨(List.subset_append_left _ _).trans ihS, fun u => ?_⟩
        obtain ⟨h1, h2, h3⟩ := ihU u
        exact ⟨fun hm => h1 (List.mem_append_left _ hm), h2, h3⟩
      | none =>
        cases hf : fetch (normalize url base) with
        | none =>
          obtain ⟨ihS, ihU⟩ := ih acc ⟨st.processed ++ [url], st.cache⟩
          simp only [hc, hf, StepOk]
          refine ⟨(List.subset_append_left _ _).trans ihS, fun u => ?_⟩
          obtain ⟨h1, h2, h3⟩ := ihU u
          simp only [countFetch_cons_fetch]
          by_cases hu : url = u
          · subst hu
            have hmem : url ∈ st.processed ++ [url] :=
              List.mem_append_right _ (List.mem_singleton.2 rfl)
            have h0 : countFetch url (importLoop normalize fetch resolve base rest acc
                ⟨st.processed ++ [url], st.cache⟩).2.2 = 0 := h1 hmem
            simp only [eq_self_iff_true, if_true]
            refine ⟨fun hm => absurd hm hv, fun _ => ihS hmem, by omega⟩
          · simp only [if_neg hu, Nat.add_zero]
            exact ⟨fun hm => h1 (List.mem_append_left _ hm), h2, h3⟩
        | some css =>
          obtain ⟨g1S, g1U⟩ := hres css ⟨st.processed ++ [url],
            dictInsert st.cache (normalize url base) css⟩
          simp only [hc, hf, StepOk]
          set rr := resolve css ⟨st.processed ++ [url],
            dictInsert st.cache (normalize url base) css⟩ with hrr
          set wr := (if mq = "" then rr.1
            else "@media " ++ mq ++ " \x7b\n" ++ rr.1 ++ "\n\x7d") with hwr
          obtain ⟨ihS, ihU⟩ := ih (acc ++ "\n" ++ wr) rr.2.1
          set lres := importLoop normalize fetch resolve base rest
            (acc ++ "\n" ++ wr) rr.2.1 with hlres
          refine ⟨?_, fun u => ?_⟩
          · intro a ha
            exact ihS (g1S (List.mem_append_left _ ha))
          · obtain ⟨g1, g2, g3⟩ := g1U u
            obtain ⟨h1, h2, h3⟩ := ihU u
            simp only [countFetch_cons_fetch, countFetch_append]
            by_cases hu : url = u
            · subst hu
              have hmem : url ∈ st.processed ++ [url] :=
                List.mem_append_right _ (List.mem_singleton.2 rfl)
              have g0 : countFetch url rr.2.2 = 0 := g1 hmem
              have h0 : countFetch url lres.2.2 = 0 := h1 (g1S hmem)
              simp only [eq_self_iff_true, if_true]
              refine ⟨fun hm => absurd hm hv, fun _ => ihS (g1S hmem), by omega⟩
            · simp only [if_neg hu, Nat.add_zero]
              refine ⟨fun hm => ?_, fun hcnt => ?_, ?_⟩
              · have gz : countFetch u rr.2.2 = 0 := g1 (List.mem_append_left _ hm)
                have hz : countFetch u lres.2.2 = 0 :=
                  h1 (g1S (List.mem_append_left _ hm))
                omega
              · rcases Nat.lt_or_ge (countFetch u rr.2.2) 1 with hlt | hge
                · exact h2 (by omega)
                · exact ihS (g2 hge)
              · rcases Nat.lt_or_ge (countFetch u rr.2.2) 1 with hlt | hge
                · have := h3
                  omega
                · have hz : countFetch u lres.2.2 = 0 := h1 (g2 hge)
                  have := g3
                  omega

/-- Every `process_imports` call tree obeys the visited-set
discipline. -/
theorem processImportsGas_good (scan : String → List (String × String) × String)
    (normalize : String → String → String) (fetch : String → Option String)
    (base : String) :
    ∀ gas : Nat, FetchGood (processImportsGas scan normalize fetch base gas) := by
  intro gas
  induction gas with
  | zero =>
    intro css st
    refine ⟨by simp [processImportsGas], fun u => ?_⟩
    simp [processImportsGas, countFetch]
  | succ gas ihg =>
    intro css st
    simp only [processImportsGas]
    exact importLoop_good normalize fetch _ base ihg (scan css).1 (scan css).2 st

/-- Identity normalization (all test targets are already absolute). -/
def normId : String → String → String := fun u _ => u

/-- Document with one import, for the cross-call experiment. -/
def docD : String := "@import \"u.css\";dbody"

/-- Scan table for `docD`. -/
def tblD : List (String × (List (String × String) × String)) :=
  [(docD, ([("u.css", "")], "dbody"))]

/-- Fetch environment for `docD` (unchanged between runs). -/
def fetchD : String → Option String :=
  fun u => if u = "u.css" then some "ucontent" else none

/-- **C1 (amended).** Two top-level `process_imports` runs on the same
document yield identical output when each run starts from a fresh
`ImportManager` — the extractor constructs a new instance per document
and calls `clear()` in a `finally` — because after `clear()` (equal to
`__init__`'s state) the result is a pure function of the document and
the unchanged network/filesystem, independent of any earlier state.
The visited set is *instance* state, however, not per-call state:
`process_imports` itself never resets `_processed_imports`, so a second
call on the same instance without `clear()` can observe the first
call's visited URLs (see the counterexample). -/
theorem process_imports_clear_stable
    (scan : String → List (String × String) × String)
    (normalize : String → String → String) (fetch : String → Option String)
    (base : String) (depth : Nat) (css : String) (st1 st2 : ImpState) :
    process_imports scan normalize fetch base depth css (ImportManager_clear st1) =
      process_imports scan normalize fetch base depth css (ImportManager_clear st2) ∧
    ImportManager_clear st1 = newImportManager :=
  ⟨rfl, rfl⟩

/-- **C1 counterexample.** On one `ImportManager` instance the second
`process_imports` call does *not* start with an empty visited set: the
first run inlines `u.css` and leaves it in `_processed_imports`, so the
second run on the same document drops the import as circular and
returns different output — visited-URL state from the first call is
observable in the second call's result. -/
theorem process_imports_state_leak_counterexample :
    (processImportsGas (scanTable tblD) normId fetchD "base" MAX_IMPORT_DEPTH docD
      newImportManager).1 = "dbody\nucontent" ∧
    (processImportsGas (scanTable tblD) normId fetchD "base" MAX_IMPORT_DEPTH docD
      (processImportsGas (scanTable tblD) normId fetchD "base" MAX_IMPORT_DEPTH docD
        newImportManager).2.1).1 = "dbody" ∧
    (processImportsGas (scanTable tblD) normId fetchD "base" MAX_IMPORT_DEPTH docD
      (processImportsGas (scanTable tblD) normId fetchD "base" MAX_IMPORT_DEPTH docD
        newImportManager).2.1).1 ≠
    (processImportsGas (scanTable tblD) normId fetchD "base" MAX_IMPORT_DEPTH docD
      newImportManager).1 := by
  refine ⟨by decide, by decide, by decide⟩

/-- Document A of the cycle: imports `b.css`, body `sa`. -/
def docA : String := "@import \"b.css\";sa"

/-- Document B of the cycle: imports `a.css`, body `sb`. -/
def docB : String := "@import \"a.css\";sb"

/-- Scan table for the A↔B cycle. -/
def tblCyc : List (String × (List (String × String) × String)) :=
  [(docA, ([("b.css", "")], "sa")), (docB, ([("a.css", "")], "sb"))]

/-- Fetch environment for the A↔B cycle. -/
def fetchCyc : String → Option String :=
  fun u => if u = "a.css" then some docA else if u = "b.css" then some docB else none

/-- Resolution of the cyclic document A (fetched by the caller, so
resolution starts from A's content with an empty visited set). -/
def cycRun : String × ImpState × List ImpEvent :=
  processImportsGas (scanTable tblCyc) normId fetchCyc "base" MAX_IMPORT_DEPTH docA
    newImportManager

/-- **C4 (amended).** Resolution of a cyclic A→B→A document terminates:
every import target is added to the visited set before being fetched,
a target already in the set is never fetched, and no target is fetched
more than once per instance.  The cycle is cut at the first *repeated target* —
B, whose second occurrence (inside the re-resolved
copy of A) is dropped with a circular-import warning.  The root
document's own URL is never pre-registered in the visited set, so A is
fetched once more when B imports it and A's body appears twice in the
output. -/
theorem import_cycle_terminates_single_fetch :
    (∀ (scan : String → List (String × String) × String)
       (normalize : String → String → String) (fetch : String → Option String)
       (base : String) (gas : Nat) (css : String) (st : ImpState) (u : String),
       u ∈ st.processed →
       countFetch u (processImportsGas scan normalize fetch base gas css st).2.2 = 0) ∧
    (∀ (scan : String → List (String × String) × String)
       (normalize : String → String → String) (fetch : String → Option String)
       (base : String) (gas : Nat) (css : String) (st : ImpState) (u : String),
       countFetch u (processImportsGas scan normalize fetch base gas css st).2.2 ≤ 1) ∧
    cycRun.1 = "sa\nsb\nsa" ∧
    cycRun.2.2 = [ImpEvent.fetchAttempt "b.css", ImpEvent.fetchAttempt "a.css",
      ImpEvent.circular "b.css"] := by
  refine ⟨?_, ?_, by decide, by decide⟩
  · intro scan normalize fetch base gas css st u hu
    exact (((processImportsGas_good scan normalize fetch base gas) css st).2 u).1 hu
  · intro scan normalize fetch base gas css st u
    exact (((processImportsGas_good scan normalize fetch base gas) css st).2 u).2.2

/-- Witness for `import_cycle_terminates_single_fetch` at concrete
input: a target already visited before the call is never fetched. -/
theorem import_cycle_terminates_single_fetch_witness :
    countFetch "x.css" (processImportsGas (scanTable tblD) normId fetchD "base" 10 docD
      ⟨["x.css"], []⟩).2.2 = 0 ∧
    countFetch "u.css" (processImportsGas (scanTable tblD) normId fetchD "base" 10 docD
      newImportManager).2.2 ≤ 1 :=
  ⟨import_cycle_terminates_single_fetch.1 (scanTable tblD) normId fetchD "base" 10 docD
     ⟨["x.css"], []⟩ "x.css" (by decide),
   import_cycle_terminates_single_fetch.2.1 (scanTable tblD) normId fetchD "base" 10 docD
     newImportManager "u.css"⟩

/-- **C4 counterexample.** In the A→B→A walk the second occurrence of
*A* is not dropped: A's URL is absent from the visited set when
B imports it (only targets are registered, never the root), so A
is fetched again (`fetchAttempt "a.css"` occurs, no
`circular "a.css"` warning exists) and A's body `sa` appears twice in
the output; the warning that ends the walk is for B. -/
theorem import_cycle_counterexample :
    countFetch "a.css" cycRun.2.2 = 1 ∧
    ImpEvent.circular "a.css" ∉ cycRun.2.2 ∧
    ImpEvent.circular "b.css" ∈ cycRun.2.2 ∧
    cycRun.1 = "sa" ++ "\n" ++ ("sb" ++ "\n" ++ "sa") := by
  refine ⟨by decide, by decide, by decide, by decide⟩

/-- The eleven-document import chain: document k imports `u(k+1)`. -/
def tblChain : List (String × (List (String × String) × String)) :=
  [("@import \"u1\";b0", ([("u1", "")], "b0")),
   ("@import \"u2\";b1", ([("u2", "")], "b1")),
   ("@import \"u3\";b2", ([("u3", "")], "b2")),
   ("@import \"u4\";b3", ([("u4", "")], "b3")),
   ("@import \"u5\";b4", ([("u5", "")], "b4")),
   ("@import \"u6\";b5", ([("u6", "")], "b5")),
   ("@import \"u7\";b6", ([("u7", "")], "b6")),
   ("@import \"u8\";b7", ([("u8", "")], "b7")),
   ("@import \"u9\";b8", ([("u9", "")], "b8")),
   ("@import \"u10\";b9", ([("u10", "")], "b9")),
   ("@import \"u11\";b10", ([("u11", "")], "b10"))]

/-- Fetch environment for the chain. -/
def fetchChain : String → Option String :=
  fun u => lookupKey
    [("u1", "@import \"u2\";b1"), ("u2", "@import \"u3\";b2"),
     ("u3", "@import \"u4\";b3"), ("u4", "@import \"u5\";b4"),
     ("u5", "@import \"u6\";b5"), ("u6", "@import \"u7\";b6"),
     ("u7", "@import \"u8\";b7"), ("u8", "@import \"u9\";b8"),
     ("u9", "@import \"u10\";b9"), ("u10", "@import \"u11\";b10"),
     ("u11", "b11")] u

/-- Resolution of the head of the chain at depth 0. -/
def chainRun : String × ImpState × List ImpEvent :=
  process_imports (scanTable tblChain) normId fetchChain "base" 0 "@import \"u1\";b0"
    newImportManager

/-- **C5.** A `process_imports` call entered with
`depth >= MAX_IMPORT_DEPTH` (10) returns its input unchanged — imports
neither stripped nor expanded — recording only a depth-limit warning (a
soft stop, not an error); consequently in an eleven-deep import chain
the document holding the eleventh `@import` is reached with the budget
exhausted and that directive survives verbatim in the final output
(which also carries the depth warning). -/
theorem depth_limit_soft_stop :
    (∀ (scan : String → List (String × String) × String)
       (normalize : String → String → String) (fetch : String → Option String)
       (base : String) (depth : Nat) (css : String) (st : ImpState),
       MAX_IMPORT_DEPTH ≤ depth →
       process_imports scan normalize fetch base depth css st =
         (css, st, [ImpEvent.depthWarning])) ∧
    chainRun.1 = "b0\nb1\nb2\nb3\nb4\nb5\nb6\nb7\nb8\nb9\n" ++ "@import \"u11\";" ++ "b10" ∧
    ImpEvent.depthWarning ∈ chainRun.2.2 ∧
    countFetch "u11" chainRun.2.2 = 0 := by
  refine ⟨?_, by decide, by decide, by decide⟩
  intro scan normalize fetch base depth css st h
  unfold process_imports
  rw [Nat.sub_eq_zero_of_le h]
  rfl

/-- Witness for `depth_limit_soft_stop`: a call at depth 10 returns
the text untouched with only the warning. -/
theorem depth_limit_soft_stop_witness :
    process_imports (scanTable tblD) normId fetchD "base" 10 docD newImportManager =
      (docD, newImportManager, [ImpEvent.depthWarning]) :=
  depth_limit_soft_stop.1 (scanTable tblD) normId fetchD "base" 10 docD newImportManager
    (by decide)

end CssExtractor
